import Mathlib

/-!
Verification development for the `smart-crawler` Supabase edge function
(`supabase/functions/smart-crawler/index.ts`).

The TypeScript source is shallowly embedded: JSON/JS runtime values become
the inductive `JSVal`, the pure functions (`convertToCrawl4aiFormat`,
`calculateConfidenceScore`) become Lean functions over `JSVal`, and the
stateful functions (`updateSchemaMetrics`, `performSchemaBasedCrawl`)
become explicit state-passing functions over a model of the
`extraction_schemas` row together with an effect trace for database
writes.  JavaScript exceptions are modelled with `Except`.
-/

namespace SmartCrawler

/-- A JSON-style JavaScript runtime value, as can appear in the
`patterns` JSONB column and in parsed crawl results.  `vUndefined` models
`undefined` (e.g. the result of reading an absent property). -/
inductive JSVal where
  | vNull
  | vUndefined
  | vBool (b : Bool)
  | vNum (n : Int)
  | vStr (s : String)
  | vArr (elems : List JSVal)
  | vObj (fields : List (String × JSVal))

namespace JSVal

/-- JavaScript truthiness: `null`, `undefined`, `false`, `0` and `""` are
falsy; every array and object is truthy. -/
def truthy : JSVal → Bool
  | .vNull => false
  | .vUndefined => false
  | .vBool b => b
  | .vNum n => n != 0
  | .vStr s => s != ""
  | .vArr _ => true
  | .vObj _ => true

/-- JavaScript `typeof`: note `typeof null = "object"` and arrays are
`"object"` as well. -/
def typeofStr : JSVal → String
  | .vNull => "object"
  | .vUndefined => "undefined"
  | .vBool _ => "boolean"
  | .vNum _ => "number"
  | .vStr _ => "string"
  | .vArr _ => "object"
  | .vObj _ => "object"

/-- Optional-chaining property read `v?.key`: `undefined` on non-objects
and on absent keys (the keys read by the source — `selector`,
`attribute`, `required` — are absent on arrays and primitives). -/
def getProp (v : JSVal) (key : String) : JSVal :=
  match v with
  | .vObj fields =>
    match fields.lookup key with
    | some w => w
    | none => .vUndefined
  | _ => .vUndefined

/-- The JavaScript `in` operator for the keys the source probes
(`'selector' in def`, `'attribute' in def`); those keys are own
properties only of plain objects. -/
def hasKey (v : JSVal) (key : String) : Bool :=
  match v with
  | .vObj fields => fields.any (fun kv => kv.1 == key)
  | _ => false

/-- The `Object.keys`/value pairs used by the source's `for (const key of
Object.keys(x))` loops: object entries in insertion order, array
elements under their stringified indices, nothing for other primitives.
(`Object.keys(null)` / `Object.keys(undefined)` throw; the scorer models
that throw at its call site.) -/
def jsEntries : JSVal → List (String × JSVal)
  | .vObj fields => fields
  | .vArr elems => elems.enum.map (fun p => (toString p.1, p.2))
  | _ => []

end JSVal

open JSVal

/-- Model of `def?.selector ?? ''` as the string the source subsequently treats it
as.  Exact for strings and for `null`/`undefined`/absent (the `?? ''`
branch).  A non-string primitive selector is kept as-is by the source but
only ever observed through `/a\[|img\[|li|ul/.test(selector)`, and the
string coercions of numbers and booleans never contain those substrings,
so modelling them as `""` is observationally exact; array/object
selectors (coerced to joined-elements / `"[object Object]"`) are also
modelled as `""`. -/
def selString : JSVal → String
  | .vStr s => s
  | _ => ""

/-- Does `pat` occur as a contiguous run of `l`? -/
def dataContains (pat : List Char) : List Char → Bool
  | [] => pat.isEmpty
  | c :: t => pat.isPrefixOf (c :: t) || dataContains pat t

/-- Substring test: does `pat` occur somewhere in `s`? -/
def strContains (s pat : String) : Bool := dataContains pat.data s.data

/-- The source's recognized multi-value structural pattern table, the
regex `/a\[|img\[|li|ul/` of `processField`: anchor-with-href `a[`,
image-with-src `img[`, list-item `li`, unordered-list `ul`, each matched
as a substring of the selector. -/
def matchesListPattern (s : String) : Bool :=
  strContains s "a[" || strContains s "img[" || strContains s "li" || strContains s "ul"

/-- The composite-attribute handling of `processField`:
`if (attr && attr.includes('|')) { attr = attr.split('|')[0]; }`.
On a truthy string it keeps the segment before the first `|`; a truthy
value with no `.includes` method (number, boolean, plain object) throws
`TypeError`, as does a truthy array that contains the element `"|"`
(arrays have `.includes` but no `.split`); falsy values pass through. -/
def attrFirstSegment (attr : JSVal) : Except String JSVal :=
  if attr.truthy then
    match attr with
    | .vStr s => .ok (.vStr (String.mk (s.data.takeWhile (fun c => c != '|'))))
    | .vArr elems =>
      -- `Array.prototype.includes` compares with `===`: against the string
      -- `'|'` only a string element can match.
      if elems.any (fun e => match e with | .vStr s => s == "|" | _ => false) then
        .error "attr.split is not a function"
      else .ok (.vArr elems)
    | _ => .error "attr.includes is not a function"
  else .ok attr

/-- A field of the Crawl4AI schema emitted by `convertToCrawl4aiFormat`:
a leaf `{name, selector, type, attribute?, required?}` or a nested group
`{name, type: 'nested', fields}`. -/
inductive Field where
  | leaf (name : String) (selector : String) (ftype : String)
      (attr : Option JSVal) (required : Bool)
  | group (name : String) (children : List Field)

/-- The `name` property every emitted field carries. -/
def Field.fname : Field → String
  | .leaf n _ _ _ _ => n
  | .group n _ => n

theorem sizeOf_snd_lt_of_mem_obj {fields : List (String × JSVal)}
    {kv : String × JSVal} (h : kv ∈ fields) :
    sizeOf kv.2 < sizeOf (JSVal.vObj fields) := by
  have h1 : sizeOf kv < sizeOf fields := List.sizeOf_lt_of_mem h
  have h2 : sizeOf kv.2 < sizeOf kv := by
    obtain ⟨a, b⟩ := kv
    simp only [Prod.mk.sizeOf_spec]
    omega
  simp only [JSVal.vObj.sizeOf_spec]
  omega

theorem snd_mem_of_mem_enumFrom {α : Type} {l : List α} {n : Nat}
    {p : Nat × α} (h : p ∈ l.enumFrom n) : p.2 ∈ l := by
  induction l generalizing n with
  | nil => cases h
  | cons a t ih =>
    cases h with
    | head => exact List.mem_cons_self _ _
    | tail _ h' => exact List.mem_cons_of_mem _ (ih h')

theorem sizeOf_snd_lt_of_mem_entries {d : JSVal} {kv : String × JSVal}
    (h : kv ∈ d.jsEntries) : sizeOf kv.2 < sizeOf d := by
  cases d with
  | vObj fields => exact sizeOf_snd_lt_of_mem_obj h
  | vArr elems =>
    simp only [JSVal.jsEntries, List.mem_map] at h
    obtain ⟨p, hp, hkv⟩ := h
    rw [List.enum_eq_enumFrom] at hp
    have hmem : p.2 ∈ elems := snd_mem_of_mem_enumFrom hp
    have h1 : sizeOf p.2 < sizeOf elems := List.sizeOf_lt_of_mem hmem
    have h2 : sizeOf kv.2 = sizeOf p.2 := by rw [← hkv]
    simp only [JSVal.vArr.sizeOf_spec]
    omega
  | vNull => simp [JSVal.jsEntries] at h
  | vUndefined => simp [JSVal.jsEntries] at h
  | vBool b => simp [JSVal.jsEntries] at h
  | vNum n => simp [JSVal.jsEntries] at h
  | vStr s => simp [JSVal.jsEntries] at h

/-- Is this pattern definition treated as a nested mapping by
`processField`?  The source condition:
`def && typeof def === 'object' && !('selector' in def) && !('attribute' in def)`. -/
def isNestedDef (d : JSVal) : Bool :=
  d.truthy && d.typeofStr == "object" && !(d.hasKey "selector") && !(d.hasKey "attribute")

/-- Model of `attr === 'textContent' || attr === 'text'`: strict equality against a
string literal holds only for the equal string value. -/
def isTextAttr : JSVal → Bool
  | .vStr s => s == "textContent" || s == "text"
  | _ => false

/-- The source's `processField(name, def)`.  A truthy object value with
neither a `selector` nor an `attribute` key is recursed into as a nested
group; otherwise the value is handled as a leaf: `selector` defaults to
`''`, composite attributes are cut at the first `|`, and the `type` is
`'text'` for the whole-text accessors, `'list'` when the selector matches
the recognized multi-value pattern table, `'attribute'` otherwise (in
which case a truthy attribute is retained on the field).  `Except.error`
models the `TypeError` thrown on a truthy attribute value without
`.includes`/`.split`. -/
def processField (name : String) (d : JSVal) : Except String Field :=
  if isNestedDef d then do
    let children ← d.jsEntries.attach.mapM
      (fun kv => processField kv.1.1 kv.1.2)
    .ok (.group name children)
  else do
    let sel := selString (d.getProp "selector")
    let attr0 ← attrFirstSegment (d.getProp "attribute")
    let ftype : String :=
      if isTextAttr attr0 then "text"
      else if matchesListPattern sel then "list"
      else "attribute"
    let attrOut : Option JSVal :=
      if ftype == "attribute" && attr0.truthy then some attr0 else none
    .ok (.leaf name sel ftype attrOut (d.getProp "required").truthy)
termination_by sizeOf d
decreasing_by
  exact sizeOf_snd_lt_of_mem_entries kv.2

/-- The schema object returned by `convertToCrawl4aiFormat`. -/
structure Crawl4aiSchema where
  name : String
  baseSelector : String
  fields : List Field
  transform : String

/-- The source's `convertToCrawl4aiFormat(patterns)`: one field per key
of the patterns mapping (when `patterns` is a truthy object), wrapped
with `name: 'extraction_schema'`, `baseSelector: 'body'` and
`transform: 'flatten'`.  Propagates the `TypeError` a bad leaf attribute
makes `processField` throw. -/
def convertToCrawl4aiFormat (patterns : JSVal) : Except String Crawl4aiSchema := do
  let fields ←
    if patterns.truthy && patterns.typeofStr == "object" then
      patterns.jsEntries.mapM (fun kv => processField kv.1 kv.2)
    else
      .ok []
  .ok ⟨"extraction_schema", "body", fields, "flatten"⟩

/-! ## Confidence scorer -/

/-- The populated-check of `calculateConfidenceScore`'s inner loop:
`value !== null && value !== undefined && value !== ''` (strict equality:
only the empty string equals `''`; no trimming happens). -/
def isPopulated (v : JSVal) : Bool :=
  match v with
  | .vNull => false
  | .vUndefined => false
  | .vStr s => s != ""
  | _ => true

/-- The key/value entries visited by the scorer's
`for (const key of Object.keys(item))` loop over one item, with
`item[key]` as the value: own enumerable entries of objects, indexed
elements of arrays, indexed one-character strings of a string,
nothing for numbers and booleans; `Object.keys` on `null`/`undefined`
throws a `TypeError`. -/
def itemEntries : JSVal → Except String (List (String × JSVal))
  | .vNull => .error "Cannot convert undefined or null to object"
  | .vUndefined => .error "Cannot convert undefined or null to object"
  | .vObj fields => .ok fields
  | .vArr elems => .ok (elems.enum.map (fun p => (toString p.1, p.2)))
  | .vStr s => .ok (s.data.enum.map (fun p => (toString p.1, JSVal.vStr (String.mk [p.2]))))
  | .vNum _ => .ok []
  | .vBool _ => .ok []

/-- The source's `calculateConfidenceScore(extractedContent)`: `0` for
falsy or non-object input; otherwise wrap a bare value into a one-item
sequence, count populated keys over all items' own keys combined, and
return `populated / totalFields` (`0` when there are no keys at all).
JavaScript float division is modelled exactly with `ℚ`; the `TypeError`
of `Object.keys` on a `null`/`undefined` sequence element is the
`Except.error` case. -/
def calculateConfidenceScore (extractedContent : JSVal) : Except String ℚ :=
  if !extractedContent.truthy || extractedContent.typeofStr != "object" then .ok 0
  else do
    let items : List JSVal :=
      match extractedContent with
      | .vArr elems => elems
      | v => [v]
    let entries ← items.mapM itemEntries
    let totalFields : ℕ := (entries.map List.length).sum
    let populated : ℕ := (entries.map (fun l => (l.filter (fun kv => isPopulated kv.2)).length)).sum
    if totalFields = 0 then .ok 0
    else .ok ((populated : ℚ) / (totalFields : ℚ))

/-! ## Metrics tracker -/

/-- One row of the `extraction_schemas` table, with the columns the
function touches (`patterns`, `usage_count`, `last_used_at`) and
representative further columns that serve as frame fields.
`usage_count : Option Int` — `none` models a `NULL`/non-number value,
matching the source's `typeof existing.usage_count === 'number'` probe. -/
structure SchemaRecord where
  id : String
  domain : String
  url_pattern : String
  patterns : JSVal
  usage_count : Option Int
  last_used_at : Option String
  created_at : String

/-- The first awaited step of `updateSchemaMetrics`: the
`select('usage_count')...maybeSingle()` read.  `none` when the row is
absent (or its `usage_count` is not a number). -/
def metricsFetchCount (row : Option SchemaRecord) : Option Int :=
  row.bind (fun r => r.usage_count)

/-- Model of `let newCount = 1; if (existing && typeof existing.usage_count ===
'number') { newCount = existing.usage_count + (success ? 1 : 0); }` -/
def metricsNewCount (success : Bool) (fetched : Option Int) : Int :=
  match fetched with
  | some c => c + (if success then 1 else 0)
  | none => 1

/-- The second awaited step of `updateSchemaMetrics`: the
`update(updates).eq('id', schemaId)` write, where `updates` always
carries `last_used_at` and carries `usage_count = newCount` only when
`success` holds.  A write against an absent row updates nothing. -/
def metricsApplyUpdate (success : Bool) (now : String) (newCount : Int)
    (row : Option SchemaRecord) : Option SchemaRecord :=
  row.map (fun r =>
    { r with
      last_used_at := some now
      usage_count := if success then some newCount else r.usage_count })

/-- The source's `updateSchemaMetrics(schemaId, success, processingTime, supabase)`
acting on the row the id denotes: the read followed by the write.
(`processingTime` is only logged by the source and does not influence
the row.) -/
def updateSchemaMetrics (success : Bool) (now : String)
    (row : Option SchemaRecord) : Option SchemaRecord :=
  metricsApplyUpdate success now (metricsNewCount success (metricsFetchCount row)) row

/-! ## Concurrent invocations of the metrics tracker

`updateSchemaMetrics` suspends twice against storage: at the
`usage_count` SELECT and at the UPDATE.  Concurrent invocations against
the same schema row therefore interleave at exactly these two points;
the model below runs any interleaving of the SELECT/UPDATE events of `n`
`success = true` invocations. -/

/-- A storage event of one of the concurrent invocations: invocation
`i`'s SELECT resolving, or its UPDATE resolving. -/
inductive MetricsEvt where
  | sel (i : Nat)
  | upd (i : Nat)
  deriving DecidableEq, Repr

/-- Shared state: the schema row plus, per invocation, the fetched
`usage_count` its SELECT captured (`none` while it has not read yet). -/
structure MetricsRace where
  row : Option SchemaRecord
  captured : List (Option (Option Int))

/-- Effect of one event, with every invocation running
`updateSchemaMetrics` with `success = true`: a SELECT captures the
current `usage_count`; an UPDATE writes the row computed from the value
captured by the same invocation's SELECT (a write before the matching
read cannot happen in a valid schedule and is a no-op here). -/
def metricsStep (now : String) (s : MetricsRace) : MetricsEvt → MetricsRace
  | .sel i => { s with captured := s.captured.set i (some (metricsFetchCount s.row)) }
  | .upd i =>
    match s.captured.getD i none with
    | some fetched =>
      { s with row := metricsApplyUpdate true now (metricsNewCount true fetched) s.row }
    | none => s

/-- Run a schedule of events over the shared state. -/
def runMetricsRace (now : String) (evts : List MetricsEvt) (s : MetricsRace) : MetricsRace :=
  evts.foldl (metricsStep now) s

/-- Initial shared state for `n` in-flight invocations. -/
def initRace (n : Nat) (row : Option SchemaRecord) : MetricsRace :=
  ⟨row, List.replicate n none⟩

/-- A schedule is an interleaving of the events of `n` invocations:
every invocation's SELECT and UPDATE occur exactly once, the SELECT
before the UPDATE, and no other events occur. -/
def validSchedule (n : Nat) (evts : List MetricsEvt) : Bool :=
  evts.length == 2 * n &&
  (List.range n).all (fun i =>
    (evts.countP (fun e => e == .sel i) == 1) &&
    (evts.countP (fun e => e == .upd i) == 1) &&
    ((evts.takeWhile (fun e => e != .upd i)).countP (fun e => e == .sel i) == 1))

/-! ## Orchestrator -/

/-- Outcome of the external crawl delegation
(`new JsonCssExtractionStrategy(...)`, `new AsyncWebCrawler()`,
`await crawler.arun(url, ...)` and the subsequent
`JSON.parse(result.extracted_content)`): either some step throws
(transport failure, timeout, a `ReferenceError`, a JSON parse error —
all landing in the source's `catch`), or a result object is returned
with its `success` flag, its parsed `extracted_content` (`none` when
`extracted_content` is falsy) and its optional `error_message`. -/
inductive DelegateOutcome where
  | throws (msg : Option String)
  | returns (ok : Bool) (extracted : Option JSVal) (errorMessage : Option String)

/-- A database write of the function, as observed by storage.
`metricsUpdate` is the write `updateSchemaMetrics` performs;
`resultsSave` is the results store's save operation — spec §6
`save(url, schemaId, content, qualityScore)` — in the observation
vocabulary so that its presence or absence on a path can be stated. -/
inductive DBEffect where
  | metricsUpdate (schemaId : String) (success : Bool)
  | resultsSave (url : String) (schemaId : String) (content : JSVal) (score : ℚ)

/-- Is this effect a save to the results store? -/
def DBEffect.isResultsSave : DBEffect → Bool
  | .resultsSave _ _ _ _ => true
  | _ => false

/-- Is this effect a metrics update with the given success flag? -/
def DBEffect.isMetricsUpdate (success : Bool) : DBEffect → Bool
  | .metricsUpdate _ s => s == success
  | _ => false

/-- The structured result object `performSchemaBasedCrawl` resolves
with. -/
structure CrawlResponse where
  success : Bool
  extractedContent : Option JSVal
  extractionMethod : String
  processingTimeMs : Int
  confidenceScore : Option ℚ
  costSavings : Option String
  error : Option String

/-- Model of `err?.message || fallback` and `result?.error_message || fallback`:
a missing or falsy (empty) message is replaced by the fallback. -/
def orFallback (msg : Option String) (fallback : String) : String :=
  match msg with
  | some m => if m = "" then fallback else m
  | none => fallback

/-- The source's `performSchemaBasedCrawl(url, schemaId, supabase)`,
over one attempt's environment: whether the patterns SELECT errored
(`fetchErr`), the schema row the id denotes (`row`, also the row the
inner `updateSchemaMetrics` reads and writes), the crawl delegation's
outcome, the attempt's timestamp and elapsed milliseconds.  Returns the
response, the schema row after the attempt, and the database writes
performed.  Every path is total: all three failure conditions and every
thrown error resolve to a structured `success = false` response. -/
def performSchemaBasedCrawl (url schemaId : String) (fetchErr : Bool)
    (row : Option SchemaRecord) (delegate : DelegateOutcome)
    (now : String) (elapsed : Int) :
    CrawlResponse × Option SchemaRecord × List DBEffect :=
  -- `if (error || !schemaRow || !schemaRow.patterns)`
  if fetchErr ||
      (match row with
       | none => true
       | some r => !r.patterns.truthy) then
    (⟨false, none, "llm", elapsed, none, none, some "Extraction schema not found"⟩,
     updateSchemaMetrics false now row, [.metricsUpdate schemaId false])
  else
    match convertToCrawl4aiFormat (match row with | some r => r.patterns | none => .vUndefined) with
    | .error msg =>
      -- the conversion's TypeError lands in the outer catch
      (⟨false, none, "llm", elapsed, none, none, some (orFallback (some msg) "Unknown error")⟩,
       updateSchemaMetrics false now row, [.metricsUpdate schemaId false])
    | .ok _ =>
      match delegate with
      | .throws msg =>
        (⟨false, none, "llm", elapsed, none, none, some (orFallback msg "Unknown error")⟩,
         updateSchemaMetrics false now row, [.metricsUpdate schemaId false])
      | .returns ok extracted errorMessage =>
        match ok, extracted with
        | true, some content =>
          -- `if (result && result.success && result.extracted_content)`
          match calculateConfidenceScore content with
          | .ok score =>
            (⟨true, some content, "schema", elapsed, some score, some "90% (no LLM calls)", none⟩,
             updateSchemaMetrics true now row, [.metricsUpdate schemaId true])
          | .error msg =>
            -- the scorer's TypeError lands in the outer catch
            (⟨false, none, "llm", elapsed, none, none, some (orFallback (some msg) "Unknown error")⟩,
             updateSchemaMetrics false now row, [.metricsUpdate schemaId false])
        | _, _ =>
          (⟨false, none, "llm", elapsed, none, none,
            some (orFallback errorMessage "Schema extraction failed")⟩,
           updateSchemaMetrics false now row, [.metricsUpdate schemaId false])

/-! ## Shape predicates over pattern trees and scorer inputs -/

/-- A string, `null`, or `undefined` (the value of an absent key). -/
def strOrNullish : JSVal → Bool
  | .vStr _ => true
  | .vNull => true
  | .vUndefined => true
  | _ => false

/-- A non-object top-level scorer input: `null`, `undefined`, a number,
a string, or a boolean. -/
def isPrimitiveInput : JSVal → Bool
  | .vNull => true
  | .vUndefined => true
  | .vBool _ => true
  | .vNum _ => true
  | .vStr _ => true
  | _ => false

/-- A single extracted record (a mapping). -/
def isRecordVal : JSVal → Bool
  | .vObj _ => true
  | _ => false

/-- The scorer contract's input domain (spec §4.2): a record, or a
sequence of records. -/
def contentOk : JSVal → Bool
  | .vObj _ => true
  | .vArr elems => elems.all isRecordVal
  | _ => false

/-- The effective first attribute segment of a leaf whose attribute
value is a string or nullish: the part before the first `|` of a
string; `""` for null/undefined/absent. -/
def attrEff (v : JSVal) : String :=
  match v with
  | .vStr s => String.mk (s.data.takeWhile (fun c => c != '|'))
  | _ => ""

/-- No `.` character occurs in the string. -/
def dotFreeB (s : String) : Bool := !(s.data.contains '.')

/-- All members pairwise distinct (used for key lists). -/
def nodupKeys : List String → Bool
  | [] => true
  | s :: rest => !(rest.contains s) && nodupKeys rest

/-- The data-model leaf shape of spec §3: an object (with distinct keys)
whose `selector` and `attribute` values, where present, are strings. -/
def wfLeafShape (d : JSVal) : Bool :=
  match d with
  | .vObj fields =>
    nodupKeys (fields.map Prod.fst) &&
    strOrNullish (d.getProp "selector") && strOrNullish (d.getProp "attribute")
  | _ => false

/-- A well-formed patterns tree per spec §3: a finite mapping with
distinct keys whose values are either nested well-formed mappings (as
recognized by the source's `isNestedDef` probe) or well-shaped leaf
definitions. -/
def wfPatterns (v : JSVal) : Bool :=
  match v with
  | .vObj fields =>
    nodupKeys (fields.map Prod.fst) &&
    fields.attach.all (fun kv =>
      if isNestedDef kv.1.2 then wfPatterns kv.1.2 else wfLeafShape kv.1.2)
  | _ => false
termination_by sizeOf v
decreasing_by exact sizeOf_snd_lt_of_mem_obj kv.2

/-- Every key anywhere in the patterns tree is free of `.`. -/
def dotFreeKeys (v : JSVal) : Bool :=
  match v with
  | .vObj fields =>
    fields.attach.all (fun kv =>
      dotFreeB kv.1.1 && (if isNestedDef kv.1.2 then dotFreeKeys kv.1.2 else true))
  | _ => true
termination_by sizeOf v
decreasing_by exact sizeOf_snd_lt_of_mem_obj kv.2

/-- Every leaf definition reached by `processField` below this pattern
value carries a string-or-absent `attribute` value — exactly the
condition under which the source's attribute handling cannot throw. -/
def leafValsOk (v : JSVal) : Bool :=
  if isNestedDef v then
    v.jsEntries.attach.all (fun kv => leafValsOk kv.1.2)
  else
    strOrNullish (v.getProp "attribute")
termination_by sizeOf v
decreasing_by exact sizeOf_snd_lt_of_mem_entries kv.2

/-- Requires `leafValsOk` for every top-level pattern value of the mapping. -/
def patternsValsOk (patterns : JSVal) : Bool :=
  patterns.jsEntries.all (fun kv => leafValsOk kv.2)

/-! ## Dotted leaf paths of a plan -/

mutual

/-- The leaf-name paths of one plan field, as segment lists: the leaf's
own name, or the group's name consed onto each of its children's paths. -/
def fieldSegPaths : Field → List (List String)
  | .leaf n _ _ _ _ => [[n]]
  | .group n children => (fieldsSegPaths children).map (fun p => n :: p)
termination_by f => sizeOf f

/-- The leaf-name paths of a list of plan fields, in order. -/
def fieldsSegPaths : List Field → List (List String)
  | [] => []
  | f :: fs => fieldSegPaths f ++ fieldsSegPaths fs
termination_by fs => sizeOf fs

end

mutual

/-- Plan-side well-formedness produced by the Normalizer from a
well-formed dot-free tree: dot-free field name and, for groups,
pairwise-distinct child names with well-formed children. -/
def goodField : Field → Bool
  | .leaf n _ _ _ _ => dotFreeB n
  | .group n children =>
    dotFreeB n && nodupKeys (children.map Field.fname) && goodFieldList children
termination_by f => sizeOf f

/-- Requires `goodField` for every member. -/
def goodFieldList : List Field → Bool
  | [] => true
  | f :: fs => goodField f && goodFieldList fs
termination_by fs => sizeOf fs

end

/-- Join character lists with a `.` separator. -/
def sjoin : List (List Char) → List Char
  | [] => []
  | [x] => x
  | x :: xs => x ++ '.' :: sjoin xs

/-- Dot-join a segment list into one string. -/
def strJoin (segs : List String) : String :=
  String.mk (sjoin (segs.map String.data))

/-- The dot-joined leaf-name paths of a plan, built from the nesting
path of group names down to each leaf name. -/
def dottedLeafPaths (plan : Crawl4aiSchema) : List String :=
  (fieldsSegPaths plan.fields).map strJoin

/-- The dotted leaf paths of a conversion outcome (empty on a throw). -/
def planPathsOf (e : Except String Crawl4aiSchema) : List String :=
  match e with
  | .ok plan => dottedLeafPaths plan
  | .error _ => []

/-! ## Concrete sample inputs -/

/-- A stored schema row whose patterns hold one textual `title` leaf. -/
def sampleRecord : SchemaRecord :=
  ⟨"11111111-2222-3333-4444-555555555555", "example.com", "https://example.com/*",
   .vObj [("title", .vObj [("selector", .vStr "h1"), ("attribute", .vStr "textContent")])],
   some 3, none, "2025-01-01T00:00:00Z"⟩

/-- Two concurrent successful metric updates whose SELECTs both happen
before either UPDATE. -/
def lostUpdateSchedule : List MetricsEvt := [.sel 0, .sel 1, .upd 0, .upd 1]

/-- A fully successful attempt: row present, delegate returns extractable
content `{title: "Hello"}`. -/
def successAttempt : CrawlResponse × Option SchemaRecord × List DBEffect :=
  performSchemaBasedCrawl "https://example.com/article" "schema-1" false
    (some sampleRecord)
    (.returns true (some (.vObj [("title", .vStr "Hello")])) none)
    "2025-01-02T00:00:00Z" 120

/-- A well-formed patterns tree whose dot-joined leaf paths collide:
the top-level key `"a.b"` against the leaf `"b"` nested in group `"a"`. -/
def dotCollidePatterns : JSVal :=
  .vObj
    [("a.b", .vObj [("selector", .vStr "h1"), ("attribute", .vStr "textContent")]),
     ("a", .vObj [("b", .vObj [("selector", .vStr "h2"), ("attribute", .vStr "textContent")])])]

/-- A patterns mapping whose single leaf carries the truthy non-string
attribute value `5`. -/
def badAttrPatterns : JSVal :=
  .vObj [("k", .vObj [("selector", .vStr "h1"), ("attribute", .vNum 5)])]

instance {ε α : Type} [DecidableEq ε] [DecidableEq α] : DecidableEq (Except ε α) :=
  fun a b =>
    match a, b with
    | .ok x, .ok y => decidable_of_iff (x = y) (by simp)
    | .error x, .error y => decidable_of_iff (x = y) (by simp)
    | .ok _, .error _ => isFalse (by simp)
    | .error _, .ok _ => isFalse (by simp)

/-! ## Theorems -/

theorem mapM_pmap {α γ : Type} {P : α → Prop} (g : α → Except String γ) :
    ∀ (l : List α) (H : ∀ x ∈ l, P x),
      (l.pmap (fun x h => (⟨x, h⟩ : {x // P x})) H).mapM (fun kv => g kv.1) = l.mapM g := by
  intro l
  induction l with
  | nil => intro H; rfl
  | cons a t ih =>
    intro H
    simp only [List.pmap, List.mapM_cons, ih]

theorem mapM_attach {α γ : Type} (g : α → Except String γ) (l : List α) :
    l.attach.mapM (fun kv => g kv.1) = l.mapM g := by
  simp only [List.attach, List.attachWith]
  exact mapM_pmap g l _

theorem except_bind_pure_eq_map {ε α β : Type} (x : Except ε α) (f : α → β) :
    (x >>= fun a => pure (f a)) = x.map f := by
  cases x <;> rfl

theorem except_bind_ok {ε α β : Type} (a : α) (f : α → Except ε β) :
    ((Except.ok a : Except ε α) >>= f) = f a := rfl

theorem except_bind_error {ε α β : Type} (e : ε) (f : α → Except ε β) :
    ((Except.error e : Except ε α) >>= f) = .error e := rfl

/-- Evaluation of the scorer on a bare record: the populated ratio over
the record's own entries. -/
theorem score_vObj (fields : List (String × JSVal)) :
    calculateConfidenceScore (.vObj fields) =
      (if fields.length = 0 then .ok 0
       else .ok (((fields.filter (fun kv => isPopulated kv.2)).length : ℚ) /
                 (fields.length : ℚ))) := by
  have h : calculateConfidenceScore (.vObj fields) =
      (if (([fields].map List.length).sum = 0) then Except.ok 0
       else Except.ok
         (((([fields].map (fun l => (l.filter (fun kv => isPopulated kv.2)).length)).sum : ℕ) : ℚ) /
          ((([fields].map List.length).sum : ℕ) : ℚ))) := rfl
  rw [h]
  simp

/-- Unfolding of `processField` on a nested definition: the group of the
recursively processed entries. -/
theorem processField_of_nested (name : String) (d : JSVal) (h : isNestedDef d = true) :
    processField name d =
      (d.jsEntries.mapM (fun kv => processField kv.1 kv.2)).map (Field.group name) := by
  rw [processField, if_pos h]
  show (d.jsEntries.attach.mapM (fun kv => processField kv.1.1 kv.1.2) >>= fun children =>
    Except.ok (Field.group name children)) = _
  rw [mapM_attach (fun kv => processField kv.1 kv.2) d.jsEntries]
  exact except_bind_pure_eq_map _ _

/-- Unfolding of `processField` on a leaf definition. -/
theorem processField_of_leaf (name : String) (d : JSVal) (h : isNestedDef d = false) :
    processField name d =
      (attrFirstSegment (d.getProp "attribute")).map (fun attr0 =>
        let sel := selString (d.getProp "selector")
        let ftype : String :=
          if isTextAttr attr0 then "text"
          else if matchesListPattern sel then "list"
          else "attribute"
        Field.leaf name sel ftype
          (if ftype == "attribute" && attr0.truthy then some attr0 else none)
          (d.getProp "required").truthy) := by
  rw [processField, if_neg (by simp [h])]
  show (attrFirstSegment (d.getProp "attribute") >>= fun attr0 => Except.ok _) = _
  exact except_bind_pure_eq_map _ _

theorem score_nonobject_zero (v : JSVal) (h : isPrimitiveInput v = true) :
    calculateConfidenceScore v = .ok 0 := by
  cases v with
  | vNull => rfl
  | vUndefined => rfl
  | vBool b => cases b <;> rfl
  | vNum n =>
    simp only [calculateConfidenceScore, JSVal.typeofStr]
    rw [if_pos (by simp)]
  | vStr s =>
    simp only [calculateConfidenceScore, JSVal.typeofStr]
    rw [if_pos (by simp)]
  | vArr elems => simp [isPrimitiveInput] at h
  | vObj fields => simp [isPrimitiveInput] at h

/-- **C10**: a non-object input — `null`, `undefined`, a number, a
string, or a boolean — makes `calculateConfidenceScore` return `0`
rather than raise: the scorer is total over such inputs. -/
theorem calculateConfidenceScore_primitive (v : JSVal) (h : isPrimitiveInput v = true) :
    calculateConfidenceScore v = .ok 0 :=
  score_nonobject_zero v h

/-- **C10 witness**: the scorer at the concrete non-object input `null`. -/
theorem calculateConfidenceScore_primitive_witness :
    calculateConfidenceScore .vNull = .ok 0 :=
  calculateConfidenceScore_primitive .vNull (by decide)

/-- **C5 counterexample**: a record whose only key holds the
whitespace-only string `" "` scores `1`, not `0` — the populated-check
compares against `''` without trimming. -/
theorem score_whitespace_cex :
    calculateConfidenceScore (.vObj [("a", .vStr " ")]) = .ok 1 ∧
    (Except.ok (1 : ℚ) : Except String ℚ) ≠ .ok 0 := by
  constructor
  · rw [score_vObj]
    have h1 : ((" " : String) != "") = true := rfl
    norm_num [isPopulated, List.filter, h1]
  · simp

/-- **C5 amended**: a textual value counts as populated exactly when it
differs from the empty string, with no trimming; in particular a record
whose only key holds a whitespace-only string scores `1`. -/
theorem score_single_string_key (s : String) :
    calculateConfidenceScore (.vObj [("a", .vStr s)]) =
      .ok (if s = "" then 0 else 1) := by
  rw [score_vObj]
  by_cases hs : s = ""
  · subst hs
    have h0 : (("" : String) != "") = false := rfl
    norm_num [isPopulated, List.filter, h0]
  · have h1 : (s != "") = true := by simpa using hs
    norm_num [isPopulated, List.filter, h1, hs]

/-- **C6**: on an existing row with numeric `usage_count = n`,
`updateSchemaMetrics` sets `last_used_at` to the attempt's timestamp
regardless of outcome, sets `usage_count` to `n + 1` exactly on success
(leaving it `n` on failure), and modifies no other field of the row. -/
theorem updateSchemaMetrics_existing (r : SchemaRecord) (n : Int) (success : Bool) (now : String)
    (h : r.usage_count = some n) :
    updateSchemaMetrics success now (some r) =
      some { r with
             usage_count := some (if success then n + 1 else n)
             last_used_at := some now } := by
  cases success <;>
    simp [updateSchemaMetrics, metricsApplyUpdate, metricsNewCount, metricsFetchCount, h]

/-- **C6 witness**: the metrics update at a concrete row with
`usage_count = 3`. -/
theorem updateSchemaMetrics_existing_witness :
    updateSchemaMetrics true "2025-01-02T00:00:00Z" (some sampleRecord) =
      some { sampleRecord with
             usage_count := some (if (true : Bool) then 3 + 1 else 3)
             last_used_at := some "2025-01-02T00:00:00Z" } :=
  updateSchemaMetrics_existing sampleRecord 3 true "2025-01-02T00:00:00Z" rfl

/-- Evaluation of the scorer on a sequence: iterate the items. -/
theorem score_vArr (elems : List JSVal) :
    calculateConfidenceScore (.vArr elems) =
      ((elems.mapM itemEntries) >>= fun entries =>
        if (entries.map List.length).sum = 0 then Except.ok 0
        else Except.ok
          ((((entries.map (fun l => (l.filter (fun kv => isPopulated kv.2)).length)).sum : ℕ) : ℚ) /
           (((entries.map List.length).sum : ℕ) : ℚ))) := rfl

theorem mapM_itemEntries_ok {items : List JSVal} (h : ∀ i ∈ items, isRecordVal i = true) :
    ∃ ls, items.mapM itemEntries = .ok ls := by
  induction items with
  | nil => exact ⟨[], rfl⟩
  | cons a t ih =>
    have ha := h a (List.mem_cons_self a t)
    obtain ⟨fs, hf⟩ : ∃ fs, itemEntries a = .ok fs := by
      cases a with
      | vNull => simp [isRecordVal] at ha
      | vUndefined => simp [isRecordVal] at ha
      | vBool b => exact ⟨_, rfl⟩
      | vNum n => exact ⟨_, rfl⟩
      | vStr s => exact ⟨_, rfl⟩
      | vArr es => exact ⟨_, rfl⟩
      | vObj fs => exact ⟨fs, rfl⟩
    obtain ⟨ls, hls⟩ := ih (fun i hi => h i (List.mem_cons_of_mem a hi))
    refine ⟨fs :: ls, ?_⟩
    rw [List.mapM_cons, hf, except_bind_ok, hls]
    rfl

theorem ratio_if_bounds (ls : List (List (String × JSVal))) {q : ℚ}
    (h : (if (ls.map List.length).sum = 0 then (Except.ok 0 : Except String ℚ)
          else Except.ok
            ((((ls.map (fun l => (l.filter (fun kv => isPopulated kv.2)).length)).sum : ℕ) : ℚ) /
             (((ls.map List.length).sum : ℕ) : ℚ))) = .ok q) :
    0 ≤ q ∧ q ≤ 1 := by
  split at h
  · obtain rfl : (0 : ℚ) = q := by injection h
    norm_num
  · rename_i htot
    obtain rfl :
        ((((ls.map (fun l => (l.filter (fun kv => isPopulated kv.2)).length)).sum : ℕ) : ℚ) /
         (((ls.map List.length).sum : ℕ) : ℚ)) = q := by injection h
    have hle : (ls.map (fun l => (l.filter (fun kv => isPopulated kv.2)).length)).sum ≤
        (ls.map List.length).sum :=
      List.sum_le_sum (fun l _ => List.length_filter_le _ l)
    have htpos : (0 : ℚ) < ((ls.map List.length).sum : ℚ) := by
      exact_mod_cast Nat.pos_of_ne_zero htot
    constructor
    · positivity
    · rw [div_le_one htpos]
      exact_mod_cast hle

/-- Whenever the scorer returns a value at all, that value lies in
`[0, 1]`. -/
theorem score_ok_bounds {v : JSVal} {q : ℚ} (h : calculateConfidenceScore v = .ok q) :
    0 ≤ q ∧ q ≤ 1 := by
  cases v with
  | vNull => rw [show calculateConfidenceScore .vNull = .ok 0 from rfl] at h
             obtain rfl : (0 : ℚ) = q := by injection h
             norm_num
  | vUndefined =>
    rw [show calculateConfidenceScore .vUndefined = .ok 0 from rfl] at h
    obtain rfl : (0 : ℚ) = q := by injection h
    norm_num
  | vBool b =>
    have hb : calculateConfidenceScore (.vBool b) = .ok 0 := by cases b <;> rfl
    rw [hb] at h
    obtain rfl : (0 : ℚ) = q := by injection h
    norm_num
  | vNum n =>
    have hn : calculateConfidenceScore (.vNum n) = .ok 0 :=
      score_nonobject_zero _ rfl
    rw [hn] at h
    obtain rfl : (0 : ℚ) = q := by injection h
    norm_num
  | vStr s =>
    have hs : calculateConfidenceScore (.vStr s) = .ok 0 :=
      score_nonobject_zero _ rfl
    rw [hs] at h
    obtain rfl : (0 : ℚ) = q := by injection h
    norm_num
  | vObj fields =>
    rw [score_vObj] at h
    split at h
    · obtain rfl : (0 : ℚ) = q := by injection h
      norm_num
    · rename_i hlen
      obtain rfl :
          (((fields.filter (fun kv => isPopulated kv.2)).length : ℚ) / (fields.length : ℚ)) = q := by
        injection h
      have hle : (fields.filter (fun kv => isPopulated kv.2)).length ≤ fields.length :=
        List.length_filter_le _ fields
      have htpos : (0 : ℚ) < (fields.length : ℚ) := by
        exact_mod_cast Nat.pos_of_ne_zero hlen
      constructor
      · positivity
      · rw [div_le_one htpos]
        exact_mod_cast hle
  | vArr elems =>
    rw [score_vArr] at h
    cases hm : elems.mapM itemEntries with
    | error e => rw [hm, except_bind_error] at h; exact absurd h (by simp)
    | ok ls =>
      rw [hm, except_bind_ok] at h
      exact ratio_if_bounds ls h

theorem score_ok_of_contentOk {v : JSVal} (hv : contentOk v = true) :
    ∃ q, calculateConfidenceScore v = .ok q := by
  cases v with
  | vNull => simp [contentOk] at hv
  | vUndefined => simp [contentOk] at hv
  | vBool b => simp [contentOk] at hv
  | vNum n => simp [contentOk] at hv
  | vStr s => simp [contentOk] at hv
  | vObj fields =>
    rw [score_vObj]
    split
    · exact ⟨_, rfl⟩
    · exact ⟨_, rfl⟩
  | vArr elems =>
    rw [score_vArr]
    obtain ⟨ls, hls⟩ := mapM_itemEntries_ok (fun i hi => by
      have := hv
      simp only [contentOk, List.all_eq_true] at this
      exact this i hi)
    rw [hls, except_bind_ok]
    split
    · exact ⟨_, rfl⟩
    · exact ⟨_, rfl⟩

/-- **C7**: for every contract-typed content (a record or a sequence of
records) the scorer produces a value, and that value lies in `[0, 1]`;
the empty record and the empty sequence score exactly `0`, and the
record `{a: "x", b: ""}` scores exactly `1/2`. -/
theorem calculateConfidenceScore_bounds :
    (∀ v : JSVal, contentOk v = true →
      ∃ q : ℚ, calculateConfidenceScore v = .ok q ∧ 0 ≤ q ∧ q ≤ 1) ∧
    calculateConfidenceScore (.vObj []) = .ok 0 ∧
    calculateConfidenceScore (.vArr []) = .ok 0 ∧
    calculateConfidenceScore (.vObj [("a", .vStr "x"), ("b", .vStr "")]) = .ok (1 / 2) := by
  refine ⟨?_, rfl, rfl, ?_⟩
  · intro v hv
    obtain ⟨q, hq⟩ := score_ok_of_contentOk hv
    exact ⟨q, hq, score_ok_bounds hq⟩
  · rw [score_vObj]
    have h1 : (("x" : String) != "") = true := rfl
    have h2 : (("" : String) != "") = false := rfl
    norm_num [isPopulated, List.filter, h1, h2]

/-- **C7 witness**: the bound at the concrete record `{a: "x"}`. -/
theorem calculateConfidenceScore_bounds_witness :
    ∃ q : ℚ, calculateConfidenceScore (.vObj [("a", .vStr "x")]) = .ok q ∧ 0 ≤ q ∧ q ≤ 1 :=
  calculateConfidenceScore_bounds.1 (.vObj [("a", .vStr "x")]) (by decide)

theorem metricsFetchCount_update_false (now : String) (row : Option SchemaRecord) :
    metricsFetchCount (updateSchemaMetrics false now row) = metricsFetchCount row := by
  cases row <;>
    simp [updateSchemaMetrics, metricsApplyUpdate, metricsFetchCount, metricsNewCount]

/-- Every run of the orchestrator lands either on the single success
branch or on a uniformly shaped structured failure. -/
theorem performSchemaBasedCrawl_shape (url schemaId : String) (fetchErr : Bool)
    (row : Option SchemaRecord) (delegate : DelegateOutcome) (now : String) (elapsed : Int) :
    (∃ content m score,
        delegate = .returns true (some content) m ∧
        calculateConfidenceScore content = .ok score ∧
        performSchemaBasedCrawl url schemaId fetchErr row delegate now elapsed =
          (⟨true, some content, "schema", elapsed, some score, some "90% (no LLM calls)", none⟩,
           updateSchemaMetrics true now row, [.metricsUpdate schemaId true])) ∨
    ((performSchemaBasedCrawl url schemaId fetchErr row delegate now elapsed).1.success = false ∧
     (performSchemaBasedCrawl url schemaId fetchErr row delegate now elapsed).1.extractionMethod = "llm" ∧
     (performSchemaBasedCrawl url schemaId fetchErr row delegate now elapsed).1.error.isSome = true ∧
     (performSchemaBasedCrawl url schemaId fetchErr row delegate now elapsed).2.1 =
        updateSchemaMetrics false now row ∧
     (performSchemaBasedCrawl url schemaId fetchErr row delegate now elapsed).2.2 =
        [.metricsUpdate schemaId false]) := by
  unfold performSchemaBasedCrawl
  split
  · exact Or.inr ⟨rfl, rfl, rfl, rfl, rfl⟩
  · split
    · exact Or.inr ⟨rfl, rfl, rfl, rfl, rfl⟩
    · split
      · exact Or.inr ⟨rfl, rfl, rfl, rfl, rfl⟩
      · rename_i ok extracted errorMessage
        split
        · rename_i content
          split
          · rename_i score hsc
            exact Or.inl ⟨content, errorMessage, score, rfl, hsc, rfl⟩
          · exact Or.inr ⟨rfl, rfl, rfl, rfl, rfl⟩
        · exact Or.inr ⟨rfl, rfl, rfl, rfl, rfl⟩

/-- **C4**: each of the three failure conditions — schema not found (fetch
error, absent row, or falsy patterns), crawl delegation throwing, or a
returned result without success/content — yields a structured local
result with `success = false`, `extractionMethod = "llm"` and an error
message, and leaves `usage_count` unchanged. -/
theorem performSchemaBasedCrawl_failure_paths
    (url schemaId : String) (fetchErr : Bool) (row : Option SchemaRecord)
    (delegate : DelegateOutcome) (now : String) (elapsed : Int)
    (h : (fetchErr = true ∨ row = none ∨ (∃ r, row = some r ∧ r.patterns.truthy = false)) ∨
         (∃ m, delegate = .throws m) ∨
         (∃ ok extracted m, delegate = .returns ok extracted m ∧
            (ok = false ∨ extracted = none))) :
    (performSchemaBasedCrawl url schemaId fetchErr row delegate now elapsed).1.success = false ∧
    (performSchemaBasedCrawl url schemaId fetchErr row delegate now elapsed).1.extractionMethod = "llm" ∧
    (performSchemaBasedCrawl url schemaId fetchErr row delegate now elapsed).1.error.isSome = true ∧
    metricsFetchCount (performSchemaBasedCrawl url schemaId fetchErr row delegate now elapsed).2.1 =
      metricsFetchCount row := by
  rcases performSchemaBasedCrawl_shape url schemaId fetchErr row delegate now elapsed with
    ⟨content, m, score, hdel, hsc, hout⟩ | ⟨h1, h2, h3, h4, _⟩
  · exfalso
    rcases h with hnot | ⟨m', hm'⟩ | ⟨ok, ex, m', hd, hoe⟩
    · rcases hnot with hfe | hrn | ⟨r, hr, hp⟩
      · subst hfe
        have hfail :
            (performSchemaBasedCrawl url schemaId true row delegate now elapsed).1.success
              = false := by
          unfold performSchemaBasedCrawl
          rw [if_pos (by simp)]
        rw [hout] at hfail
        simp at hfail
      · subst hrn
        have hfail :
            (performSchemaBasedCrawl url schemaId fetchErr none delegate now elapsed).1.success
              = false := by
          unfold performSchemaBasedCrawl
          rw [if_pos (by simp)]
        rw [hout] at hfail
        simp at hfail
      · subst hr
        have hfail :
            (performSchemaBasedCrawl url schemaId fetchErr (some r) delegate now
                elapsed).1.success = false := by
          unfold performSchemaBasedCrawl
          rw [if_pos (by simp [hp])]
        rw [hout] at hfail
        simp at hfail
    · rw [hm'] at hdel
      exact absurd hdel (by simp)
    · rw [hd] at hdel
      simp only [DelegateOutcome.returns.injEq] at hdel
      obtain ⟨hok, hex, _⟩ := hdel
      rcases hoe with rfl | rfl
      · simp at hok
      · simp at hex
  · exact ⟨h1, h2, h3, by rw [h4]; exact metricsFetchCount_update_false now row⟩

/-- **C4 witness**: the failure shape at a concrete attempt whose schema
row is absent. -/
theorem performSchemaBasedCrawl_failure_paths_witness :
    (performSchemaBasedCrawl "https://example.com" "missing" false none
        (.returns true (some (.vObj [])) none) "2025-01-02T00:00:00Z" 5).1.success = false ∧
    (performSchemaBasedCrawl "https://example.com" "missing" false none
        (.returns true (some (.vObj [])) none) "2025-01-02T00:00:00Z" 5).1.extractionMethod
      = "llm" ∧
    (performSchemaBasedCrawl "https://example.com" "missing" false none
        (.returns true (some (.vObj [])) none) "2025-01-02T00:00:00Z" 5).1.error.isSome = true ∧
    metricsFetchCount (performSchemaBasedCrawl "https://example.com" "missing" false none
        (.returns true (some (.vObj [])) none) "2025-01-02T00:00:00Z" 5).2.1 =
      metricsFetchCount none :=
  performSchemaBasedCrawl_failure_paths "https://example.com" "missing" false none
    (.returns true (some (.vObj [])) none) "2025-01-02T00:00:00Z" 5
    (Or.inl (Or.inr (Or.inl rfl)))

theorem jsvalInduction {P : JSVal → Prop}
    (hnull : P .vNull) (hundef : P .vUndefined)
    (hbool : ∀ b, P (.vBool b)) (hnum : ∀ n, P (.vNum n)) (hstr : ∀ s, P (.vStr s))
    (harr : ∀ elems, (∀ e ∈ elems, P e) → P (.vArr elems))
    (hobj : ∀ fields, (∀ kv ∈ fields, P kv.2) → P (.vObj fields)) :
    ∀ v, P v
  | .vNull => hnull
  | .vUndefined => hundef
  | .vBool b => hbool b
  | .vNum n => hnum n
  | .vStr s => hstr s
  | .vArr elems =>
    harr elems (fun e he =>
      jsvalInduction hnull hundef hbool hnum hstr harr hobj e)
  | .vObj fields =>
    hobj fields (fun kv hkv =>
      jsvalInduction hnull hundef hbool hnum hstr harr hobj kv.2)
termination_by v => sizeOf v
decreasing_by
  · have h1 : sizeOf e < sizeOf elems := List.sizeOf_lt_of_mem he
    simp only [JSVal.vArr.sizeOf_spec]
    omega
  · exact sizeOf_snd_lt_of_mem_obj hkv

theorem attrFirstSegment_vStr (s : String) :
    attrFirstSegment (.vStr s) =
      .ok (.vStr (String.mk (s.data.takeWhile (fun c => c != '|')))) := by
  by_cases hs : s = ""
  · subst hs; rfl
  · simp [attrFirstSegment, JSVal.truthy, hs]

/-- Full evaluation of `processField` on any leaf definition whose
attribute value is a string or nullish: the emitted leaf field, with
its type and retained attribute written out. -/
theorem processField_leaf_core (name : String) (d : JSVal)
    (hleaf : isNestedDef d = false)
    (hattr : strOrNullish (d.getProp "attribute") = true) :
    processField name d =
      .ok (.leaf name (selString (d.getProp "selector"))
        (if attrEff (d.getProp "attribute") = "textContent" ∨
            attrEff (d.getProp "attribute") = "text" then "text"
         else if matchesListPattern (selString (d.getProp "selector")) then "list"
         else "attribute")
        (if (attrEff (d.getProp "attribute") = "textContent" ∨
              attrEff (d.getProp "attribute") = "text") ∨
            matchesListPattern (selString (d.getProp "selector")) = true ∨
            attrEff (d.getProp "attribute") = "" then none
         else some (.vStr (attrEff (d.getProp "attribute"))))
        (d.getProp "required").truthy) := by
  rw [processField_of_leaf name d hleaf]
  cases ha : d.getProp "attribute" with
  | vStr s =>
    rw [attrFirstSegment_vStr]
    show Except.ok _ = Except.ok _
    congr 1
    simp only [attrEff]
    by_cases ht : String.mk (s.data.takeWhile (fun c => c != '|')) = "textContent" ∨
        String.mk (s.data.takeWhile (fun c => c != '|')) = "text"
    · have hta : isTextAttr (.vStr (String.mk (s.data.takeWhile (fun c => c != '|')))) = true := by
        simp [isTextAttr]
        rcases ht with h | h
        · exact Or.inl h
        · exact Or.inr h
      simp [hta, ht]
    · have hta : isTextAttr (.vStr (String.mk (s.data.takeWhile (fun c => c != '|')))) = false := by
        simp [isTextAttr]
        constructor
        · intro hc; exact ht (Or.inl hc)
        · intro hc; exact ht (Or.inr hc)
      by_cases hl : matchesListPattern (selString (d.getProp "selector")) = true
      · simp [hta, ht, hl]
      · by_cases hz : String.mk (s.data.takeWhile (fun c => c != '|')) = ""
        · simp [hta, ht, hl, hz, JSVal.truthy, isTextAttr]
        · simp [hta, ht, hl, hz, JSVal.truthy, isTextAttr]
  | vNull =>
    show Except.ok _ = Except.ok _
    congr 1
    simp only [attrEff]
    by_cases hl : matchesListPattern (selString (d.getProp "selector")) = true
    · simp [isTextAttr, hl]
    · simp [isTextAttr, hl, JSVal.truthy]
  | vUndefined =>
    show Except.ok _ = Except.ok _
    congr 1
    simp only [attrEff]
    by_cases hl : matchesListPattern (selString (d.getProp "selector")) = true
    · simp [isTextAttr, hl]
    · simp [isTextAttr, hl, JSVal.truthy]
  | vBool b => rw [ha] at hattr; simp [strOrNullish] at hattr
  | vNum n => rw [ha] at hattr; simp [strOrNullish] at hattr
  | vArr es => rw [ha] at hattr; simp [strOrNullish] at hattr
  | vObj fs => rw [ha] at hattr; simp [strOrNullish] at hattr

/-- **C3**: for every leaf definition processed by the Normalizer (with
string-or-absent selector and attribute values): a first attribute
segment denoting textual content (`textContent`, or the `text` accessor)
gives type `text`; otherwise a selector matching the recognized
multi-value pattern table (`a[`, `img[`, `li`, `ul` — anchor-with-href,
image-with-src, list-item, unordered-list) gives type `list`; every
other leaf gets type `attribute` and retains the first-segment attribute
name; and type `list` arises only from a selector matching the table. -/
theorem processField_leaf_classification (name : String) (d : JSVal)
    (hleaf : isNestedDef d = false)
    (hsel : strOrNullish (d.getProp "selector") = true)
    (hattr : strOrNullish (d.getProp "attribute") = true) :
    ∃ sel ftype attrOut req,
      processField name d = .ok (.leaf name sel ftype attrOut req) ∧
      sel = selString (d.getProp "selector") ∧
      (ftype = "text" ↔
        (attrEff (d.getProp "attribute") = "textContent" ∨
         attrEff (d.getProp "attribute") = "text")) ∧
      (attrEff (d.getProp "attribute") ≠ "textContent" →
        attrEff (d.getProp "attribute") ≠ "text" →
        matchesListPattern sel = true → ftype = "list") ∧
      (attrEff (d.getProp "attribute") ≠ "textContent" →
        attrEff (d.getProp "attribute") ≠ "text" →
        matchesListPattern sel = false →
        ftype = "attribute" ∧
          attrOut = (if attrEff (d.getProp "attribute") = "" then none
                     else some (.vStr (attrEff (d.getProp "attribute"))))) ∧
      (ftype = "list" → matchesListPattern sel = true) := by
  refine ⟨selString (d.getProp "selector"), _, _, (d.getProp "required").truthy,
    processField_leaf_core name d hleaf hattr, rfl, ?_, ?_, ?_, ?_⟩
  · by_cases ht : attrEff (d.getProp "attribute") = "textContent" ∨
        attrEff (d.getProp "attribute") = "text"
    · simp [ht]
    · simp only [if_neg ht]
      constructor
      · intro hc
        by_cases hl : matchesListPattern (selString (d.getProp "selector")) = true
        · rw [if_pos hl] at hc; exact absurd hc (by decide)
        · rw [if_neg hl] at hc; exact absurd hc (by decide)
      · intro hc; exact absurd hc ht
  · intro h1 h2 hl
    have ht : ¬(attrEff (d.getProp "attribute") = "textContent" ∨
        attrEff (d.getProp "attribute") = "text") := by
      rintro (hc | hc)
      · exact h1 hc
      · exact h2 hc
    rw [if_neg ht, if_pos hl]
  · intro h1 h2 hl
    have ht : ¬(attrEff (d.getProp "attribute") = "textContent" ∨
        attrEff (d.getProp "attribute") = "text") := by
      rintro (hc | hc)
      · exact h1 hc
      · exact h2 hc
    constructor
    · rw [if_neg ht, if_neg (by simp [hl])]
    · by_cases hz : attrEff (d.getProp "attribute") = ""
      · rw [if_pos (Or.inr (Or.inr hz)), if_pos hz]
      · have hcond : ¬((attrEff (d.getProp "attribute") = "textContent" ∨
            attrEff (d.getProp "attribute") = "text") ∨
            matchesListPattern (selString (d.getProp "selector")) = true ∨
            attrEff (d.getProp "attribute") = "") := by
          rintro ((hc | hc) | hc | hc)
          · exact h1 hc
          · exact h2 hc
          · rw [hl] at hc; exact absurd hc (by decide)
          · exact hz hc
        rw [if_neg hcond, if_neg hz]
  · intro hc
    by_cases ht : attrEff (d.getProp "attribute") = "textContent" ∨
        attrEff (d.getProp "attribute") = "text"
    · rw [if_pos ht] at hc; exact absurd hc (by decide)
    · rw [if_neg ht] at hc
      by_cases hl : matchesListPattern (selString (d.getProp "selector")) = true
      · exact hl
      · rw [if_neg hl] at hc; exact absurd hc (by decide)

/-- **C3 witness**: the classification at the concrete leaf
`{selector: "a[href]", attribute: "href"}`. -/
theorem processField_leaf_classification_witness :
    ∃ sel ftype attrOut req,
      processField "links" (.vObj [("selector", .vStr "a[href]"), ("attribute", .vStr "href")]) =
        .ok (.leaf "links" sel ftype attrOut req) ∧
      sel = selString ((JSVal.vObj [("selector", .vStr "a[href]"),
          ("attribute", .vStr "href")]).getProp "selector") ∧
      (ftype = "text" ↔
        (attrEff ((JSVal.vObj [("selector", .vStr "a[href]"),
            ("attribute", .vStr "href")]).getProp "attribute") = "textContent" ∨
         attrEff ((JSVal.vObj [("selector", .vStr "a[href]"),
            ("attribute", .vStr "href")]).getProp "attribute") = "text")) ∧
      (attrEff ((JSVal.vObj [("selector", .vStr "a[href]"),
          ("attribute", .vStr "href")]).getProp "attribute") ≠ "textContent" →
        attrEff ((JSVal.vObj [("selector", .vStr "a[href]"),
            ("attribute", .vStr "href")]).getProp "attribute") ≠ "text" →
        matchesListPattern sel = true → ftype = "list") ∧
      (attrEff ((JSVal.vObj [("selector", .vStr "a[href]"),
          ("attribute", .vStr "href")]).getProp "attribute") ≠ "textContent" →
        attrEff ((JSVal.vObj [("selector", .vStr "a[href]"),
            ("attribute", .vStr "href")]).getProp "attribute") ≠ "text" →
        matchesListPattern sel = false →
        ftype = "attribute" ∧
          attrOut = (if attrEff ((JSVal.vObj [("selector", .vStr "a[href]"),
              ("attribute", .vStr "href")]).getProp "attribute") = "" then none
                     else some (.vStr (attrEff ((JSVal.vObj [("selector", .vStr "a[href]"),
              ("attribute", .vStr "href")]).getProp "attribute"))))) ∧
      (ftype = "list" → matchesListPattern sel = true) :=
  processField_leaf_classification "links"
    (.vObj [("selector", .vStr "a[href]"), ("attribute", .vStr "href")]) rfl rfl rfl

theorem snd_mem_entries_vArr {elems : List JSVal} {kv : String × JSVal}
    (h : kv ∈ (JSVal.vArr elems).jsEntries) : kv.2 ∈ elems := by
  simp only [JSVal.jsEntries, List.mem_map] at h
  obtain ⟨p, hp, hkv⟩ := h
  rw [List.enum_eq_enumFrom] at hp
  have hm : p.2 ∈ elems := snd_mem_of_mem_enumFrom hp
  rw [← hkv]
  exact hm

theorem mapM_processField_ok (P : String × JSVal → Field → Prop) :
    ∀ (l : List (String × JSVal)),
      (∀ kv ∈ l, ∃ f, processField kv.1 kv.2 = .ok f ∧ P kv f) →
      ∃ fs, l.mapM (fun kv => processField kv.1 kv.2) = .ok fs ∧ List.Forall₂ P l fs := by
  intro l
  induction l with
  | nil => exact fun _ => ⟨[], rfl, List.Forall₂.nil⟩
  | cons a t ih =>
    intro h
    obtain ⟨f, hf, hp⟩ := h a (List.mem_cons_self a t)
    obtain ⟨fs, hfs, hps⟩ := ih (fun kv hkv => h kv (List.mem_cons_of_mem a hkv))
    refine ⟨f :: fs, ?_, List.Forall₂.cons hp hps⟩
    rw [List.mapM_cons, hf, except_bind_ok, hfs]
    rfl

/-- Under string-or-absent attribute values everywhere, `processField`
is total and names its output after its key. -/
theorem processField_ok_of_valsOk :
    ∀ (v : JSVal) (k : String), leafValsOk v = true →
      ∃ f, processField k v = .ok f ∧ f.fname = k := by
  intro v
  induction v using jsvalInduction with
  | hnull =>
    intro k hv
    rw [leafValsOk] at hv
    exact ⟨_, processField_leaf_core k .vNull rfl (by simpa [isNestedDef] using hv), rfl⟩
  | hundef =>
    intro k hv
    rw [leafValsOk] at hv
    exact ⟨_, processField_leaf_core k .vUndefined rfl (by simpa [isNestedDef] using hv), rfl⟩
  | hbool b =>
    intro k hv
    rw [leafValsOk] at hv
    have hn : isNestedDef (.vBool b) = false := by simp [isNestedDef, JSVal.typeofStr]
    exact ⟨_, processField_leaf_core k (.vBool b) hn (by simpa [hn] using hv), rfl⟩
  | hnum n =>
    intro k hv
    rw [leafValsOk] at hv
    have hn : isNestedDef (.vNum n) = false := by simp [isNestedDef, JSVal.typeofStr]
    exact ⟨_, processField_leaf_core k (.vNum n) hn (by simpa [hn] using hv), rfl⟩
  | hstr s =>
    intro k hv
    rw [leafValsOk] at hv
    have hn : isNestedDef (.vStr s) = false := by simp [isNestedDef, JSVal.typeofStr]
    exact ⟨_, processField_leaf_core k (.vStr s) hn (by simpa [hn] using hv), rfl⟩
  | harr elems ih =>
    intro k hv
    have hn : isNestedDef (.vArr elems) = true := rfl
    rw [leafValsOk, if_pos hn] at hv
    have hall : ∀ kv ∈ (JSVal.vArr elems).jsEntries, leafValsOk kv.2 = true := by
      intro kv hkv
      have := List.all_eq_true.mp hv ⟨kv, hkv⟩ (List.mem_attach _ _)
      simpa using this
    obtain ⟨fs, hfs, _⟩ := mapM_processField_ok (fun _ _ => True) (JSVal.vArr elems).jsEntries
      (fun kv hkv => by
        obtain ⟨f, hf, _⟩ := ih kv.2 (snd_mem_entries_vArr hkv) kv.1 (hall kv hkv)
        exact ⟨f, hf, trivial⟩)
    exact ⟨.group k fs, by rw [processField_of_nested k _ hn, hfs]; rfl, rfl⟩
  | hobj fields ih =>
    intro k hv
    by_cases hn : isNestedDef (.vObj fields) = true
    · rw [leafValsOk, if_pos hn] at hv
      have hall : ∀ kv ∈ fields, leafValsOk kv.2 = true := by
        intro kv hkv
        have := List.all_eq_true.mp hv
          (⟨kv, by simpa [JSVal.jsEntries] using hkv⟩ :
            {x // x ∈ (JSVal.vObj fields).jsEntries})
          (List.mem_attach _ _)
        simpa using this
      obtain ⟨fs, hfs, _⟩ := mapM_processField_ok (fun _ _ => True) fields
        (fun kv hkv => by
          obtain ⟨f, hf, _⟩ := ih kv hkv kv.1 (hall kv hkv)
          exact ⟨f, hf, trivial⟩)
      refine ⟨.group k fs, ?_, rfl⟩
      rw [processField_of_nested k _ hn]
      show Except.map (Field.group k)
          (List.mapM (fun kv => processField kv.1 kv.2) fields) =
        Except.ok (Field.group k fs)
      rw [hfs]
      rfl
    · rw [leafValsOk, if_neg hn] at hv
      have hn' : isNestedDef (.vObj fields) = false := by simpa using hn
      exact ⟨_, processField_leaf_core k (.vObj fields) hn' hv, rfl⟩

theorem processField_title :
    processField "title" (.vObj [("selector", .vStr "h1"), ("attribute", .vStr "textContent")]) =
      .ok (.leaf "title" "h1" "text" none false) := by
  rw [processField_of_leaf "title"
    (.vObj [("selector", .vStr "h1"), ("attribute", .vStr "textContent")]) rfl]
  rfl

theorem score_hello :
    calculateConfidenceScore (.vObj [("title", .vStr "Hello")]) = .ok 1 := by
  rw [score_vObj]
  have h1 : (("Hello" : String) != "") = true := rfl
  norm_num [isPopulated, List.filter, h1]

theorem convert_sample :
    convertToCrawl4aiFormat sampleRecord.patterns =
      .ok ⟨"extraction_schema", "body", [.leaf "title" "h1" "text" none false], "flatten"⟩ := by
  have h0 : convertToCrawl4aiFormat sampleRecord.patterns =
      ((List.mapM (fun kv : String × JSVal => processField kv.1 kv.2)
          [("title", JSVal.vObj [("selector", .vStr "h1"), ("attribute", .vStr "textContent")])]) >>=
        fun fields =>
          Except.ok ⟨"extraction_schema", "body", fields, "flatten"⟩) := rfl
  have h1 : (List.mapM (fun kv : String × JSVal => processField kv.1 kv.2)
      [("title", JSVal.vObj [("selector", .vStr "h1"), ("attribute", .vStr "textContent")])]) =
      (processField "title" (JSVal.vObj [("selector", .vStr "h1"), ("attribute", .vStr "textContent")])
        >>= fun b => pure [b]) := rfl
  rw [h0, h1, processField_title]
  rfl

/-- **C1** (evaluation at the failing input): on the success path the
orchestrator returns success with `method = "schema"`, runs the scorer
(confidence `1` for `{title: "Hello"}`), and records metrics success —
but its write set contains no save to the results store. -/
theorem performSchemaBasedCrawl_success_no_save :
    successAttempt.1.success = true ∧
    successAttempt.1.extractionMethod = "schema" ∧
    successAttempt.1.confidenceScore = some 1 ∧
    successAttempt.2.2 = [.metricsUpdate "schema-1" true] ∧
    successAttempt.2.2.countP DBEffect.isResultsSave = 0 := by
  have hc : convertToCrawl4aiFormat
      (match (some sampleRecord : Option SchemaRecord) with
       | some r => r.patterns
       | none => JSVal.vUndefined) =
      .ok ⟨"extraction_schema", "body", [.leaf "title" "h1" "text" none false], "flatten"⟩ :=
    convert_sample
  have hout : successAttempt =
      (⟨true, some (.vObj [("title", .vStr "Hello")]), "schema", 120, some 1,
        some "90% (no LLM calls)", none⟩,
       updateSchemaMetrics true "2025-01-02T00:00:00Z" (some sampleRecord),
       [.metricsUpdate "schema-1" true]) := by
    unfold successAttempt performSchemaBasedCrawl
    rw [if_neg (by decide)]
    rw [hc]
    dsimp only []
    rw [score_hello]
  rw [hout]
  exact ⟨rfl, rfl, rfl, rfl, rfl⟩

/-- **C9 counterexample**: `convertToCrawl4aiFormat` does raise on some
inputs — a leaf whose `attribute` value is the truthy non-string `5`
makes `attr.includes('|')` throw a `TypeError`. -/
theorem convert_badAttr_throws :
    convertToCrawl4aiFormat badAttrPatterns = .error "attr.includes is not a function" := by
  have h1 : processField "k" (.vObj [("selector", .vStr "h1"), ("attribute", .vNum 5)]) =
      .error "attr.includes is not a function" := by
    rw [processField_of_leaf "k" (.vObj [("selector", .vStr "h1"), ("attribute", .vNum 5)]) rfl]
    rfl
  have h0 : convertToCrawl4aiFormat badAttrPatterns =
      ((List.mapM (fun kv : String × JSVal => processField kv.1 kv.2)
          [("k", JSVal.vObj [("selector", .vStr "h1"), ("attribute", .vNum 5)])]) >>=
        fun fields => Except.ok ⟨"extraction_schema", "body", fields, "flatten"⟩) := rfl
  have h2 : (List.mapM (fun kv : String × JSVal => processField kv.1 kv.2)
      [("k", JSVal.vObj [("selector", .vStr "h1"), ("attribute", .vNum 5)])]) =
      (processField "k" (JSVal.vObj [("selector", .vStr "h1"), ("attribute", .vNum 5)])
        >>= fun b => pure [b]) := rfl
  rw [h0, h2, h1]
  rfl

/-- **C9 amended**: provided every leaf's `attribute` value in the
patterns mapping is a string, null or absent, the conversion never
raises; the plan then has exactly one top-level field per key of the
mapping (in order, named after it), and every pattern value that is
neither a leaf nor a mapping — not a truthy object — is coerced into an
empty-selector leaf of type `attribute`. -/
theorem convert_total_of_attrOk (kvs : List (String × JSVal))
    (h : patternsValsOk (.vObj kvs) = true) :
    ∃ plan, convertToCrawl4aiFormat (.vObj kvs) = .ok plan ∧
      List.Forall₂ (fun (kv : String × JSVal) (f : Field) =>
        f.fname = kv.1 ∧
        (¬(kv.2.truthy = true ∧ kv.2.typeofStr = "object") →
          f = .leaf kv.1 "" "attribute" none false)) kvs plan.fields := by
  have h' : kvs.all (fun kv => leafValsOk kv.2) = true := h
  have hall : ∀ kv ∈ kvs, leafValsOk kv.2 = true := fun kv hkv =>
    List.all_eq_true.mp h' kv hkv
  obtain ⟨fs, hfs, hF⟩ := mapM_processField_ok
    (fun kv f => f.fname = kv.1 ∧
      (¬(kv.2.truthy = true ∧ kv.2.typeofStr = "object") →
        f = .leaf kv.1 "" "attribute" none false))
    kvs
    (fun kv hkv => by
      obtain ⟨f, hf, hname⟩ := processField_ok_of_valsOk kv.2 kv.1 (hall kv hkv)
      refine ⟨f, hf, hname, ?_⟩
      intro hnotobj
      have hcoerce : processField kv.1 kv.2 = .ok (.leaf kv.1 "" "attribute" none false) := by
        cases hv2 : kv.2 with
        | vNull => rw [processField_of_leaf kv.1 .vNull rfl]; rfl
        | vUndefined => rw [processField_of_leaf kv.1 .vUndefined rfl]; rfl
        | vBool b =>
          rw [processField_of_leaf kv.1 (.vBool b) (by simp [isNestedDef, JSVal.typeofStr])]
          rfl
        | vNum n =>
          rw [processField_of_leaf kv.1 (.vNum n) (by simp [isNestedDef, JSVal.typeofStr])]
          rfl
        | vStr s =>
          rw [processField_of_leaf kv.1 (.vStr s) (by simp [isNestedDef, JSVal.typeofStr])]
          rfl
        | vArr es => rw [hv2] at hnotobj; exact absurd ⟨rfl, rfl⟩ hnotobj
        | vObj fs2 => rw [hv2] at hnotobj; exact absurd ⟨rfl, rfl⟩ hnotobj
      rw [hf] at hcoerce
      injection hcoerce)
  refine ⟨⟨"extraction_schema", "body", fs, "flatten"⟩, ?_, hF⟩
  have h0 : convertToCrawl4aiFormat (.vObj kvs) =
      ((List.mapM (fun kv : String × JSVal => processField kv.1 kv.2) kvs) >>=
        fun fields => Except.ok ⟨"extraction_schema", "body", fields, "flatten"⟩) := rfl
  rw [h0, hfs]
  rfl

/-- **C9 witness**: the amended totality at the concrete mapping
`{x: null}`: one coerced empty-selector `attribute` leaf. -/
theorem convert_total_of_attrOk_witness :
    ∃ plan, convertToCrawl4aiFormat (.vObj [("x", .vNull)]) = .ok plan ∧
      List.Forall₂ (fun (kv : String × JSVal) (f : Field) =>
        f.fname = kv.1 ∧
        (¬(kv.2.truthy = true ∧ kv.2.typeofStr = "object") →
          f = .leaf kv.1 "" "attribute" none false)) [("x", JSVal.vNull)] plan.fields :=
  convert_total_of_attrOk [("x", .vNull)]
    (by
      have : leafValsOk .vNull = true := by
        rw [leafValsOk]
        rfl
      simp [patternsValsOk, JSVal.jsEntries, this])

theorem sizeOf_lt_of_mem_children {children : List Field} {c : Field}
    (h : c ∈ children) (n : String) : sizeOf c < sizeOf (Field.group n children) := by
  have h1 : sizeOf c < sizeOf children := List.sizeOf_lt_of_mem h
  simp only [Field.group.sizeOf_spec]
  omega

theorem fieldInduction {P : Field → Prop}
    (hleaf : ∀ n sel t a r, P (.leaf n sel t a r))
    (hgroup : ∀ n children, (∀ c ∈ children, P c) → P (.group n children)) :
    ∀ f, P f
  | .leaf n sel t a r => hleaf n sel t a r
  | .group n children =>
    hgroup n children (fun c hc => fieldInduction hleaf hgroup c)
termination_by f => sizeOf f
decreasing_by
  exact sizeOf_lt_of_mem_children hc n

theorem fieldSegPaths_leaf (n sel t : String) (a : Option JSVal) (r : Bool) :
    fieldSegPaths (.leaf n sel t a r) = [[n]] := by
  simp [fieldSegPaths]

theorem fieldSegPaths_group (n : String) (children : List Field) :
    fieldSegPaths (.group n children) =
      (fieldsSegPaths children).map (fun p => n :: p) := by
  simp [fieldSegPaths]

theorem fieldsSegPaths_nil : fieldsSegPaths [] = [] := by
  simp [fieldsSegPaths]

theorem fieldsSegPaths_cons (f : Field) (fs : List Field) :
    fieldsSegPaths (f :: fs) = fieldSegPaths f ++ fieldsSegPaths fs := by
  simp [fieldsSegPaths]

theorem goodField_leaf (n sel t : String) (a : Option JSVal) (r : Bool) :
    goodField (.leaf n sel t a r) = dotFreeB n := by
  simp [goodField]

theorem goodField_group (n : String) (children : List Field) :
    goodField (.group n children) =
      (dotFreeB n && nodupKeys (children.map Field.fname) && goodFieldList children) := by
  simp [goodField]

theorem goodFieldList_nil : goodFieldList [] = true := by
  simp [goodFieldList]

theorem goodFieldList_cons (f : Field) (fs : List Field) :
    goodFieldList (f :: fs) = (goodField f && goodFieldList fs) := by
  simp [goodFieldList]

theorem dotFreeB_iff {s : String} : dotFreeB s = true ↔ ('.' : Char) ∉ s.data := by
  simp [dotFreeB]

theorem nodupKeys_cons {s : String} {rest : List String} :
    nodupKeys (s :: rest) = (!(rest.contains s) && nodupKeys rest) := rfl

theorem contains_iff_mem {s : String} {l : List String} :
    l.contains s = true ↔ s ∈ l := by
  simp [List.contains]

/-- Splitting on the first separator: dot-free prefixes determine the
decomposition. -/
theorem sep_inj : ∀ (x : List Char), ∀ {y A B : List Char},
    ('.' : Char) ∉ x → ('.' : Char) ∉ y →
    x ++ '.' :: A = y ++ '.' :: B → x = y ∧ A = B := by
  intro x
  induction x with
  | nil =>
    intro y A B _ hy h
    cases y with
    | nil => simpa using h
    | cons d ys =>
      exfalso
      simp only [List.nil_append, List.cons_append, List.cons.injEq] at h
      exact hy (h.1 ▸ List.mem_cons_self d ys)
  | cons c xs ih =>
    intro y A B hx hy h
    cases y with
    | nil =>
      exfalso
      simp only [List.cons_append, List.nil_append, List.cons.injEq] at h
      exact hx (h.1 ▸ List.mem_cons_self c xs)
    | cons d ys =>
      simp only [List.cons_append, List.cons.injEq] at h
      obtain ⟨rfl, h2⟩ := h
      have hx' : ('.' : Char) ∉ xs := fun hc => hx (List.mem_cons_of_mem _ hc)
      have hy' : ('.' : Char) ∉ ys := fun hc => hy (List.mem_cons_of_mem _ hc)
      obtain ⟨rfl, hAB⟩ := ih hx' hy' h2
      exact ⟨rfl, hAB⟩

theorem sjoin_two (x y : List Char) (t : List (List Char)) :
    sjoin (x :: y :: t) = x ++ '.' :: sjoin (y :: t) := rfl

/-- The join `sjoin` is injective on nonempty lists of dot-free segments. -/
theorem sjoin_inj : ∀ (xs : List (List Char)), ∀ {ys : List (List Char)},
    xs ≠ [] → ys ≠ [] →
    (∀ s ∈ xs, ('.' : Char) ∉ s) → (∀ s ∈ ys, ('.' : Char) ∉ s) →
    sjoin xs = sjoin ys → xs = ys := by
  intro xs
  induction xs with
  | nil => intro ys hxs _ _ _ _; exact absurd rfl hxs
  | cons x xt ih =>
    intro ys _ hys hdx hdy h
    cases ys with
    | nil => exact absurd rfl hys
    | cons y yt =>
      cases xt with
      | nil =>
        cases yt with
        | nil =>
          have hxy : x = y := h
          rw [hxy]
        | cons y2 yt2 =>
          exfalso
          rw [sjoin_two] at h
          have hmem : ('.' : Char) ∈ sjoin ([x] : List (List Char)) := by
            rw [h]
            exact List.mem_append.mpr (Or.inr (List.mem_cons_self _ _))
          have : ('.' : Char) ∈ x := hmem
          exact hdx x (List.mem_cons_self x []) this
      | cons x2 xt2 =>
        cases yt with
        | nil =>
          exfalso
          rw [sjoin_two] at h
          have hmem : ('.' : Char) ∈ sjoin ([y] : List (List Char)) := by
            rw [← h]
            exact List.mem_append.mpr (Or.inr (List.mem_cons_self _ _))
          have : ('.' : Char) ∈ y := hmem
          exact hdy y (List.mem_cons_self y []) this
        | cons y2 yt2 =>
          rw [sjoin_two, sjoin_two] at h
          obtain ⟨rfl, h2⟩ := sep_inj x
            (hdx x (List.mem_cons_self x _)) (hdy y (List.mem_cons_self y _)) h
          have hrec := ih (List.cons_ne_nil x2 xt2) (List.cons_ne_nil y2 yt2)
            (fun s hs => hdx s (List.mem_cons_of_mem _ hs))
            (fun s hs => hdy s (List.mem_cons_of_mem _ hs)) h2
          rw [hrec]

/-- The join `strJoin` is injective on nonempty dot-free segment paths. -/
theorem strJoin_inj {p q : List String} (hp : p ≠ []) (hq : q ≠ [])
    (hdp : ∀ s ∈ p, dotFreeB s = true) (hdq : ∀ s ∈ q, dotFreeB s = true)
    (h : strJoin p = strJoin q) : p = q := by
  have hinj : Function.Injective String.data := fun a b hab => by
    cases a; cases b; exact congrArg String.mk hab
  have hd : sjoin (p.map String.data) = sjoin (q.map String.data) := by
    have h2 := congrArg String.data h
    simpa [strJoin] using h2
  have hres := sjoin_inj (p.map String.data)
    (by simpa using hp) (by simpa using hq)
    (by
      intro s hs
      obtain ⟨t, ht, rfl⟩ := List.mem_map.mp hs
      exact dotFreeB_iff.mp (hdp t ht))
    (by
      intro s hs
      obtain ⟨t, ht, rfl⟩ := List.mem_map.mp hs
      exact dotFreeB_iff.mp (hdq t ht))
    hd
  exact (List.map_injective_iff.mpr hinj) hres

/-- Path properties of a list of fields, given them for each member:
no duplicate paths, every path headed by some member's name, all
segments dot-free. -/
theorem fieldsSegPaths_props (fs : List Field)
    (hnd : nodupKeys (fs.map Field.fname) = true)
    (hgl : goodFieldList fs = true)
    (ih : ∀ c ∈ fs, goodField c = true →
      (fieldSegPaths c).Nodup ∧ (∀ p ∈ fieldSegPaths c, p.head? = some c.fname) ∧
      (∀ p ∈ fieldSegPaths c, ∀ s ∈ p, dotFreeB s = true)) :
    (fieldsSegPaths fs).Nodup ∧
    (∀ p ∈ fieldsSegPaths fs, ∃ c ∈ fs, p.head? = some c.fname) ∧
    (∀ p ∈ fieldsSegPaths fs, ∀ s ∈ p, dotFreeB s = true) := by
  induction fs with
  | nil =>
    rw [fieldsSegPaths_nil]
    exact ⟨List.nodup_nil, by simp, by simp⟩
  | cons f ft ihl =>
    rw [goodFieldList_cons, Bool.and_eq_true] at hgl
    obtain ⟨hgf, hgt⟩ := hgl
    rw [List.map_cons, nodupKeys_cons, Bool.and_eq_true] at hnd
    obtain ⟨hnotin, hndt⟩ := hnd
    have hf := ih f (List.mem_cons_self f ft) hgf
    have hrest := ihl hndt hgt (fun c hc => ih c (List.mem_cons_of_mem f hc))
    rw [fieldsSegPaths_cons]
    refine ⟨?_, ?_, ?_⟩
    · refine List.Nodup.append hf.1 hrest.1 ?_
      intro p hp1 hp2
      have hh1 := hf.2.1 p hp1
      obtain ⟨c, hc, hh2⟩ := hrest.2.1 p hp2
      have : f.fname = c.fname := by
        rw [hh1] at hh2
        exact Option.some.inj hh2
      have hmem : f.fname ∈ ft.map Field.fname := by
        rw [this]
        exact List.mem_map_of_mem Field.fname hc
      rw [Bool.not_eq_true', ← Bool.not_eq_true] at hnotin
      exact hnotin (contains_iff_mem.mpr hmem)
    · intro p hp
      rcases List.mem_append.mp hp with hp1 | hp2
      · exact ⟨f, List.mem_cons_self f ft, hf.2.1 p hp1⟩
      · obtain ⟨c, hc, hh⟩ := hrest.2.1 p hp2
        exact ⟨c, List.mem_cons_of_mem f hc, hh⟩
    · intro p hp
      rcases List.mem_append.mp hp with hp1 | hp2
      · exact hf.2.2 p hp1
      · exact hrest.2.2 p hp2

/-- Path properties of one well-formed field: no duplicate paths, every
path headed by the field's name, all segments dot-free. -/
theorem fieldSegPaths_props : ∀ (f : Field), goodField f = true →
    (fieldSegPaths f).Nodup ∧ (∀ p ∈ fieldSegPaths f, p.head? = some f.fname) ∧
    (∀ p ∈ fieldSegPaths f, ∀ s ∈ p, dotFreeB s = true) := by
  intro f
  induction f using fieldInduction with
  | hleaf n sel t a r =>
    intro hg
    rw [goodField_leaf] at hg
    rw [fieldSegPaths_leaf]
    refine ⟨by simp, by simp [Field.fname], ?_⟩
    intro p hp s hs
    rw [List.mem_singleton] at hp
    subst hp
    rw [List.mem_singleton] at hs
    subst hs
    exact hg
  | hgroup n children ihc =>
    intro hg
    rw [goodField_group, Bool.and_eq_true, Bool.and_eq_true] at hg
    obtain ⟨⟨hdn, hnd⟩, hgl⟩ := hg
    have hprops := fieldsSegPaths_props children hnd hgl (fun c hc _hg =>
      ihc c hc (by
        have : goodFieldList children = true := hgl
        exact _hg))
    rw [fieldSegPaths_group]
    refine ⟨?_, ?_, ?_⟩
    · exact List.Nodup.map (fun p q hpq => by
        simpa using List.cons.inj hpq |>.2) hprops.1
    · intro p hp
      obtain ⟨q, _, rfl⟩ := List.mem_map.mp hp
      simp [Field.fname]
    · intro p hp s hs
      obtain ⟨q, hq, rfl⟩ := List.mem_map.mp hp
      rcases List.mem_cons.mp hs with rfl | hs2
      · exact hdn
      · exact hprops.2.2 q hq s hs2

theorem forall₂_fname_good {l : List (String × JSVal)} {fs : List Field}
    (h : List.Forall₂ (fun (kv : String × JSVal) (f : Field) =>
      f.fname = kv.1 ∧ goodField f = true) l fs) :
    fs.map Field.fname = l.map Prod.fst ∧ goodFieldList fs = true := by
  induction h with
  | nil => exact ⟨rfl, goodFieldList_nil⟩
  | cons hpf _ ihp =>
    obtain ⟨hname, hgood⟩ := hpf
    refine ⟨by simp [hname, ihp.1], ?_⟩
    rw [goodFieldList_cons, Bool.and_eq_true]
    exact ⟨hgood, ihp.2⟩

/-- On a well-formed, dot-free-keyed node, `processField` succeeds and
produces a field named after its key satisfying the plan-side
well-formedness. -/
theorem processField_good : ∀ (v : JSVal) (k : String),
    dotFreeB k = true →
    (if isNestedDef v then wfPatterns v else wfLeafShape v) = true →
    (if isNestedDef v then dotFreeKeys v else true) = true →
    ∃ f, processField k v = .ok f ∧ f.fname = k ∧ goodField f = true := by
  intro v
  induction v using jsvalInduction with
  | hnull => intro k hk hOk _; simp [isNestedDef, wfLeafShape, JSVal.truthy] at hOk
  | hundef => intro k hk hOk _; simp [isNestedDef, wfLeafShape, JSVal.truthy] at hOk
  | hbool b => intro k hk hOk _; simp [isNestedDef, wfLeafShape, JSVal.typeofStr] at hOk
  | hnum n => intro k hk hOk _; simp [isNestedDef, wfLeafShape, JSVal.typeofStr] at hOk
  | hstr s => intro k hk hOk _; simp [isNestedDef, wfLeafShape, JSVal.typeofStr] at hOk
  | harr elems _ =>
    intro k hk hOk _
    have hn : isNestedDef (.vArr elems) = true := rfl
    rw [if_pos hn] at hOk
    rw [wfPatterns.eq_def] at hOk
    simp at hOk
  | hobj fields ih =>
    intro k hk hOk hDF
    by_cases hn : isNestedDef (.vObj fields) = true
    · rw [if_pos hn] at hOk hDF
      rw [wfPatterns, Bool.and_eq_true] at hOk
      obtain ⟨hnd, hchild⟩ := hOk
      rw [dotFreeKeys] at hDF
      have hchild' : ∀ kv ∈ fields,
          (if isNestedDef kv.2 then wfPatterns kv.2 else wfLeafShape kv.2) = true := by
        intro kv hkv
        have := List.all_eq_true.mp hchild
          (⟨kv, hkv⟩ : {x // x ∈ fields}) (List.mem_attach _ _)
        simpa using this
      have hDF' : ∀ kv ∈ fields,
          dotFreeB kv.1 = true ∧
          (if isNestedDef kv.2 then dotFreeKeys kv.2 else true) = true := by
        intro kv hkv
        have := List.all_eq_true.mp hDF
          (⟨kv, hkv⟩ : {x // x ∈ fields}) (List.mem_attach _ _)
        simp only [Bool.and_eq_true] at this
        exact this
      obtain ⟨fs, hfs, hF⟩ := mapM_processField_ok
        (fun kv f => f.fname = kv.1 ∧ goodField f = true) fields
        (fun kv hkv => by
          obtain ⟨f, hf, hname, hgood⟩ := ih kv hkv kv.1
            (hDF' kv hkv).1 (hchild' kv hkv) (hDF' kv hkv).2
          exact ⟨f, hf, hname, hgood⟩)
      obtain ⟨hnames, hgl⟩ := forall₂_fname_good hF
      refine ⟨.group k fs, ?_, rfl, ?_⟩
      · rw [processField_of_nested k _ hn]
        show Except.map (Field.group k)
            (List.mapM (fun kv => processField kv.1 kv.2) fields) =
          Except.ok (Field.group k fs)
        rw [hfs]
        rfl
      · rw [goodField_group, Bool.and_eq_true, Bool.and_eq_true, hnames]
        exact ⟨⟨hk, hnd⟩, hgl⟩
    · rw [if_neg hn] at hOk
      have hn' : isNestedDef (.vObj fields) = false := by simpa using hn
      rw [wfLeafShape, Bool.and_eq_true, Bool.and_eq_true] at hOk
      obtain ⟨⟨_, _⟩, hattr⟩ := hOk
      refine ⟨_, processField_leaf_core k (.vObj fields) hn' hattr, rfl, ?_⟩
      rw [goodField_leaf]
      exact hk

/-- **C8 counterexample**: a well-formed patterns tree on which the
dot-joined leaf paths of the Normalizer's plan collide — the top-level
key `"a.b"` flattens to the same dotted path as leaf `"b"` of group
`"a"`. -/
theorem convert_dotCollide_paths_clash :
    wfPatterns dotCollidePatterns = true ∧
    ¬ (planPathsOf (convertToCrawl4aiFormat dotCollidePatterns)).Nodup := by
  constructor
  · unfold dotCollidePatterns
    rw [wfPatterns]
    simp [nodupKeys, List.attach, List.attachWith, List.pmap,
      isNestedDef, JSVal.truthy, JSVal.typeofStr, JSVal.hasKey, wfLeafShape,
      strOrNullish, JSVal.getProp, List.lookup]
    rw [wfPatterns]
    simp [nodupKeys, List.attach, List.attachWith, List.pmap,
      isNestedDef, JSVal.truthy, JSVal.typeofStr, JSVal.hasKey, wfLeafShape,
      strOrNullish, JSVal.getProp, List.lookup]
  · have hl1 : processField "a.b"
        (.vObj [("selector", .vStr "h1"), ("attribute", .vStr "textContent")]) =
        .ok (.leaf "a.b" "h1" "text" none false) := by
      rw [processField_of_leaf "a.b"
        (.vObj [("selector", .vStr "h1"), ("attribute", .vStr "textContent")]) rfl]
      rfl
    have hl2 : processField "b"
        (.vObj [("selector", .vStr "h2"), ("attribute", .vStr "textContent")]) =
        .ok (.leaf "b" "h2" "text" none false) := by
      rw [processField_of_leaf "b"
        (.vObj [("selector", .vStr "h2"), ("attribute", .vStr "textContent")]) rfl]
      rfl
    have hg : processField "a"
        (.vObj [("b", .vObj [("selector", .vStr "h2"), ("attribute", .vStr "textContent")])]) =
        .ok (.group "a" [.leaf "b" "h2" "text" none false]) := by
      rw [processField_of_nested "a"
        (.vObj [("b", .vObj [("selector", .vStr "h2"), ("attribute", .vStr "textContent")])]) rfl]
      have hm : List.mapM (fun kv : String × JSVal => processField kv.1 kv.2)
          [("b", JSVal.vObj [("selector", .vStr "h2"), ("attribute", .vStr "textContent")])] =
          (processField "b"
            (JSVal.vObj [("selector", .vStr "h2"), ("attribute", .vStr "textContent")])
            >>= fun b => pure [b]) := rfl
      show Except.map (Field.group "a")
          (List.mapM (fun kv : String × JSVal => processField kv.1 kv.2)
            [("b", JSVal.vObj [("selector", .vStr "h2"), ("attribute", .vStr "textContent")])]) =
        Except.ok (Field.group "a" [Field.leaf "b" "h2" "text" none false])
      rw [hm, hl2]
      rfl
    have hconv : convertToCrawl4aiFormat dotCollidePatterns =
        .ok ⟨"extraction_schema", "body",
          [.leaf "a.b" "h1" "text" none false,
           .group "a" [.leaf "b" "h2" "text" none false]], "flatten"⟩ := by
      have h0 : convertToCrawl4aiFormat dotCollidePatterns =
          ((List.mapM (fun kv : String × JSVal => processField kv.1 kv.2)
              [("a.b", JSVal.vObj [("selector", .vStr "h1"), ("attribute", .vStr "textContent")]),
               ("a", JSVal.vObj [("b", .vObj [("selector", .vStr "h2"),
                  ("attribute", .vStr "textContent")])])]) >>=
            fun fields => Except.ok ⟨"extraction_schema", "body", fields, "flatten"⟩) := rfl
      rw [h0, List.mapM_cons, hl1, except_bind_ok, List.mapM_cons, hg, except_bind_ok]
      rfl
    rw [hconv]
    show ¬ (dottedLeafPaths ⟨"extraction_schema", "body",
      [.leaf "a.b" "h1" "text" none false,
       .group "a" [.leaf "b" "h2" "text" none false]], "flatten"⟩).Nodup
    have hpaths : dottedLeafPaths ⟨"extraction_schema", "body",
        [.leaf "a.b" "h1" "text" none false,
         .group "a" [.leaf "b" "h2" "text" none false]], "flatten"⟩ =
        ["a.b", "a.b"] := by
      rw [dottedLeafPaths]
      rw [show (⟨"extraction_schema", "body",
        [Field.leaf "a.b" "h1" "text" none false,
         Field.group "a" [Field.leaf "b" "h2" "text" none false]], "flatten"⟩ :
          Crawl4aiSchema).fields =
        [Field.leaf "a.b" "h1" "text" none false,
         Field.group "a" [Field.leaf "b" "h2" "text" none false]] from rfl]
      rw [fieldsSegPaths_cons, fieldSegPaths_leaf, fieldsSegPaths_cons, fieldSegPaths_group,
        fieldsSegPaths_cons, fieldSegPaths_leaf, fieldsSegPaths_nil]
      rfl
    rw [hpaths]
    decide

/-- **C8 amended**: for every well-formed patterns tree all of whose
keys are free of the dot character, the Normalizer succeeds and the
dot-joined leaf paths of its plan are pairwise distinct.  (Without the
dot-free restriction the paths can collide, as keys may themselves
contain dots.) -/
theorem convert_nodup_dotted_paths (patterns : JSVal)
    (hwf : wfPatterns patterns = true) (hdf : dotFreeKeys patterns = true) :
    ∃ plan, convertToCrawl4aiFormat patterns = .ok plan ∧
      (dottedLeafPaths plan).Nodup := by
  cases patterns with
  | vObj kvs =>
    rw [wfPatterns, Bool.and_eq_true] at hwf
    obtain ⟨hnd, hchild⟩ := hwf
    rw [dotFreeKeys] at hdf
    have hchild' : ∀ kv ∈ kvs,
        (if isNestedDef kv.2 then wfPatterns kv.2 else wfLeafShape kv.2) = true := by
      intro kv hkv
      have := List.all_eq_true.mp hchild
        (⟨kv, hkv⟩ : {x // x ∈ kvs}) (List.mem_attach _ _)
      simpa using this
    have hdf' : ∀ kv ∈ kvs,
        dotFreeB kv.1 = true ∧
        (if isNestedDef kv.2 then dotFreeKeys kv.2 else true) = true := by
      intro kv hkv
      have := List.all_eq_true.mp hdf
        (⟨kv, hkv⟩ : {x // x ∈ kvs}) (List.mem_attach _ _)
      simp only [Bool.and_eq_true] at this
      exact this
    obtain ⟨fs, hfs, hF⟩ := mapM_processField_ok
      (fun kv f => f.fname = kv.1 ∧ goodField f = true) kvs
      (fun kv hkv =>
        processField_good kv.2 kv.1 (hdf' kv hkv).1 (hchild' kv hkv) (hdf' kv hkv).2)
    obtain ⟨hnames, hgl⟩ := forall₂_fname_good hF
    refine ⟨⟨"extraction_schema", "body", fs, "flatten"⟩, ?_, ?_⟩
    · have h0 : convertToCrawl4aiFormat (.vObj kvs) =
          ((List.mapM (fun kv : String × JSVal => processField kv.1 kv.2) kvs) >>=
            fun fields => Except.ok ⟨"extraction_schema", "body", fields, "flatten"⟩) := rfl
      rw [h0, hfs]
      rfl
    · have hprops := fieldsSegPaths_props fs (by rw [hnames]; exact hnd) hgl
        (fun c _ => fieldSegPaths_props c)
      show ((fieldsSegPaths fs).map strJoin).Nodup
      refine List.Nodup.map_on ?_ hprops.1
      intro p hp q hq hpq
      obtain ⟨cp, _, hhp⟩ := hprops.2.1 p hp
      obtain ⟨cq, _, hhq⟩ := hprops.2.1 q hq
      have hpne : p ≠ [] := by
        intro hnil
        rw [hnil] at hhp
        simp at hhp
      have hqne : q ≠ [] := by
        intro hnil
        rw [hnil] at hhq
        simp at hhq
      exact strJoin_inj hpne hqne (hprops.2.2 p hp) (hprops.2.2 q hq) hpq
  | vNull => rw [wfPatterns.eq_def] at hwf; simp at hwf
  | vUndefined => rw [wfPatterns.eq_def] at hwf; simp at hwf
  | vBool b => rw [wfPatterns.eq_def] at hwf; simp at hwf
  | vNum n => rw [wfPatterns.eq_def] at hwf; simp at hwf
  | vStr s => rw [wfPatterns.eq_def] at hwf; simp at hwf
  | vArr elems => rw [wfPatterns.eq_def] at hwf; simp at hwf

/-- **C8 witness**: the amended uniqueness at a concrete dot-free tree
with a group and two leaves. -/
theorem convert_nodup_dotted_paths_witness :
    ∃ plan, convertToCrawl4aiFormat
        (.vObj [("title", .vObj [("selector", .vStr "h1"), ("attribute", .vStr "textContent")]),
                ("meta", .vObj [("author", .vObj [("selector", .vStr ".author"),
                   ("attribute", .vStr "textContent")])])]) = .ok plan ∧
      (dottedLeafPaths plan).Nodup :=
  convert_nodup_dotted_paths _
    (by
      rw [wfPatterns]
      simp [nodupKeys, List.attach, List.attachWith, List.pmap,
        isNestedDef, JSVal.truthy, JSVal.typeofStr, JSVal.hasKey, wfLeafShape,
        strOrNullish, JSVal.getProp, List.lookup]
      rw [wfPatterns]
      simp [nodupKeys, List.attach, List.attachWith, List.pmap,
        isNestedDef, JSVal.truthy, JSVal.typeofStr, JSVal.hasKey, wfLeafShape,
        strOrNullish, JSVal.getProp, List.lookup])
    (by
      rw [dotFreeKeys]
      simp [List.attach, List.attachWith, List.pmap, isNestedDef, JSVal.truthy,
        JSVal.typeofStr, JSVal.hasKey, dotFreeB]
      rw [dotFreeKeys]
      simp [List.attach, List.attachWith, List.pmap, isNestedDef, JSVal.truthy,
        JSVal.typeofStr, JSVal.hasKey, dotFreeB])

/-- **C2**: under the interleaving in which both concurrent successful
invocations' SELECTs resolve before either UPDATE, the read-then-write
`updateSchemaMetrics` loses an increment: from `usage_count = 0`, two
concurrent successes leave the count at `1`, not `0 + 2`. -/
theorem updateSchemaMetrics_lost_update :
    validSchedule 2 lostUpdateSchedule = true ∧
    metricsFetchCount (runMetricsRace "2025-01-02T00:00:00Z" lostUpdateSchedule
      (initRace 2 (some { sampleRecord with usage_count := some 0 }))).row = some 1 ∧
    (1 : Int) ≠ 0 + 2 := by
  refine ⟨by decide, by rfl, by decide⟩

end SmartCrawler
